import Mathlib

/-!
Verification of the barycentric Lagrange interpolation engine of the
Numerics-Labs-Workspace repository (lessons 3-1 .. 3-4).

The development shallowly embeds the C sources:
  * `lab-3-1-binomial/math.c`        : 32-bit `factorial` / `binomial`
  * `lab-3-1-binomial-fixed/math.c`  : 64-bit `factorial` / `binomial`
  * `lab-3-3-interp-func/interp.c`   : equispaced nodes, binomial barycentric
    weights, Runge function `f`, evaluator `LagrangeInterp1D`
  * `lab-3-4-interp-cheb/interp.c`   : Chebyshev (extrema) nodes, alternating
    barycentric weights, the same evaluator

Machine integers are modelled as `ℤ` with explicit reduction modulo `2^32`
resp. `2^64` (two's complement wrap-around) exactly where the C accumulator
can overflow.  C `long long` division (truncation toward zero) is `Int.tdiv`.

The floating point state of the evaluator is modelled over an ordered field
(`ℚ` for equispaced data, `ℝ` for Chebyshev data, since the nodes are exact
rationals resp. cosines there); an accumulator value is an `Option`: `none`
stands for a non-finite IEEE value (infinity or NaN), produced by the
division `barw[j]/tdiff` when `tdiff` is exactly zero and propagated by
arithmetic, matching the finite/non-finite distinction of IEEE semantics.
-/

set_option maxRecDepth 16000

namespace NumLab

/-- Two's complement wrap-around of a 32-bit signed `int` accumulator. -/
def wrap32 (x : ℤ) : ℤ := (x + 2 ^ 31) % 2 ^ 32 - 2 ^ 31

/-- Two's complement wrap-around of a 64-bit signed `long long` accumulator. -/
def wrap64 (x : ℤ) : ℤ := (x + 2 ^ 63) % 2 ^ 64 - 2 ^ 63

/-- Embedding of `factorial` from `lab-3-1-binomial/math.c`: `int res = 1;
for (k=2; k<=n; k++) res *= k;` with the 32-bit accumulator wrapping on
overflow.  The loop multiplies `res` by `2, …, n` in order, which is the
same as the recursion below (`wrap32 (1*1) = 1` covers `n = 1`). -/
def factorial32 : ℕ → ℤ
  | 0 => 1
  | n + 1 => wrap32 (factorial32 n * (n + 1))

/-- Embedding of `factorial` from `lab-3-1-binomial-fixed/math.c` and from
`lab-3-3-interp-func/interp.c`: the same loop with a `long long` (64-bit)
accumulator. -/
def factorial64 : ℕ → ℤ
  | 0 => 1
  | n + 1 => wrap64 (factorial64 n * (n + 1))

/-- Embedding of `binomial` from `lab-3-3-interp-func/interp.c`:
`factorial(n) / factorial(k) / factorial(n-k)` with C `long long` division,
which truncates toward zero (`Int.tdiv`). -/
def binomial (n k : ℕ) : ℤ :=
  Int.tdiv (Int.tdiv (factorial64 n) (factorial64 k)) (factorial64 (n - k))

variable {F : Type*} [LinearOrderedField F]

/-- Embedding of the `EquispacedNodes` block of `main` in
`lab-3-3-interp-func/interp.c`: `xnodes[k] = -1.0 + k*2.0/n`. -/
def EquispacedNode (n k : ℕ) : F := -1 + (k : F) * 2 / (n : F)

/-- Embedding of the `EquispacedBarWeights` block of `main` in
`lab-3-3-interp-func/interp.c`: `w[k] = pow(-1.0, k) * binomial(n, k)`
(the `long long` result of `binomial` converted to `double`). -/
def EquispacedBarWeight (n k : ℕ) : F := (-1) ^ k * ((binomial n k : ℤ) : F)

/-- Embedding of the `ClosedChebNodes` block of `main` in
`lab-3-4-interp-cheb/interp.c`: `xnodes[k] = cos(k*acos(-1.0)/n)`,
where `acos(-1.0)` is `π`. -/
noncomputable def ChebNode (n k : ℕ) : ℝ := Real.cos ((k : ℝ) * Real.pi / (n : ℝ))

/-- Embedding of the `ClosedChebBarWeights` block of `main` in
`lab-3-4-interp-cheb/interp.c`: `w[0] = 0.5`, then `w[k] = pow(-1.0, k)` for
`k = 1..n-1`, then `w[n] = 0.5*pow(-1.0, n)` (which overwrites `w[0]` when
`n = 0`). -/
def ChebBarWeight (n k : ℕ) : F :=
  if k = n then 1 / 2 * (-1) ^ n
  else if k = 0 then 1 / 2
  else (-1) ^ k

/-- Embedding of the Runge test function `f` of both interpolation programs:
`f(x) = 1.0/(1.0 + 16.0*x*x)`. -/
def f (x : F) : F := 1 / (1 + 16 * x * x)

/-- Rational value of the C macro `e = 0.000000000000001`, the near-machine
epsilon threshold of the node-coincidence test. -/
def macEps : ℚ := 1 / 10 ^ 15

/-- Embedding of the body of the `for (j=0; j<=n; j++)` loop of
`LagrangeInterp1D` (before the `if` that may break): `tdiff = t - xnodes[j]`,
`numt += barw[j]/tdiff*fvals[j]`, `denomt += barw[j]/tdiff`.  A division by
an exactly-zero `tdiff` produces a non-finite accumulator value (`none`),
and a non-finite accumulator stays non-finite under `+=`. -/
def LagrangeStep (fvals xnodes barw : ℕ → F) (t : F) (j : ℕ)
    (st : Option F × Option F) : Option F × Option F :=
  let tdiff := t - xnodes j
  (if tdiff = 0 then none else Option.map (fun a => a + barw j / tdiff * fvals j) st.1,
   if tdiff = 0 then none else Option.map (fun a => a + barw j / tdiff) st.2)

/-- Embedding of the whole loop of `LagrangeInterp1D`, iterating
`LagrangeStep` from index `j` for `fuel` iterations; after each step, if
`fabs(tdiff) < e` the accumulators are overwritten with `fvals[j]` and `1.0`
and the loop breaks. -/
def LagrangeLoop (fvals xnodes barw : ℕ → F) (t eps : F) :
    ℕ → ℕ → Option F × Option F → Option F × Option F
  | _, 0, st => st
  | j, fuel + 1, st =>
    let st' := LagrangeStep fvals xnodes barw t j st
    if |t - xnodes j| < eps then (some (fvals j), some 1)
    else LagrangeLoop fvals xnodes barw t eps (j + 1) fuel st'

/-- Embedding of `LagrangeInterp1D` from `lab-3-3-interp-func/interp.c` and
`lab-3-4-interp-cheb/interp.c` (the two copies are identical): run the loop
over `j = 0..n` starting from `numt = denomt = 0.0` and return
`numt/denomt`.  The returned value is `none` when it would be non-finite
(non-finite accumulator, or a final division by an exactly-zero
denominator). -/
def LagrangeInterp1D (fvals xnodes : ℕ → F) (n : ℕ) (barw : ℕ → F) (t eps : F) : Option F :=
  match LagrangeLoop fvals xnodes barw t eps 0 (n + 1) (some 0, some 0) with
  | (some numt, some denomt) => if denomt = 0 then none else some (numt / denomt)
  | _ => none

/-- Node generation of `lab-3-3-interp-func/interp.c` with the division by
`n` tracked: the entry is `none` exactly when `k*2.0/n` divides by zero,
which happens iff `n = 0` (the divisor is the converted value of `n`). -/
def EquispacedNodesChk (n : ℕ) : List (Option ℚ) :=
  (List.range (n + 1)).map (fun k => if n = 0 then none else some (EquispacedNode n k))

/-- Node generation of `lab-3-4-interp-cheb/interp.c` with the division by
`n` tracked: the entry is `none` exactly when `k*acos(-1.0)/n` divides by
zero, which happens iff `n = 0`. -/
noncomputable def ChebNodesChk (n : ℕ) : List (Option ℝ) :=
  (List.range (n + 1)).map (fun k => if n = 0 then none else some (ChebNode n k))

/-! ## Integer-arithmetic facts (C4, C7, C10) -/

theorem binomial_eq_choose : ∀ n : ℕ, n ≤ 20 → ∀ k : ℕ, k ≤ n →
    binomial n k = (Nat.choose n k : ℤ) := by decide

theorem wrap32_lt (x : ℤ) : wrap32 x < 2 ^ 31 := by
  have h := Int.emod_lt_of_pos (x + 2 ^ 31) (b := 2 ^ 32) (by norm_num)
  unfold wrap32
  omega

theorem wrap64_lt (x : ℤ) : wrap64 x < 2 ^ 63 := by
  have h := Int.emod_lt_of_pos (x + 2 ^ 63) (b := 2 ^ 64) (by norm_num)
  unfold wrap64
  omega

/-- C7: the factorial-based computation is exact only up to a width-dependent
ceiling: the 32-bit `factorial` of `lab-3-1-binomial/math.c` equals `n!` for
every `n ≤ 12` and, wrapping modulo `2^32`, no longer equals `n!` from
`n = 13` on; the 64-bit `factorial` of `lab-3-1-binomial-fixed/math.c` and of
the interpolation programs equals `n!` for every `n ≤ 20` and, wrapping
modulo `2^64`, no longer equals `n!` from `n = 21` on. -/
theorem C7_factorial_overflow_ceiling :
    (∀ n : ℕ, n ≤ 12 → factorial32 n = (Nat.factorial n : ℤ)) ∧
    (∀ n : ℕ, 13 ≤ n → factorial32 n ≠ (Nat.factorial n : ℤ)) ∧
    (∀ n : ℕ, n ≤ 20 → factorial64 n = (Nat.factorial n : ℤ)) ∧
    (∀ n : ℕ, 21 ≤ n → factorial64 n ≠ (Nat.factorial n : ℤ)) := by
  refine ⟨by decide, ?_, by decide, ?_⟩
  · intro n hn heq
    have hle : Nat.factorial 13 ≤ Nat.factorial n := Nat.factorial_le hn
    have hlt : factorial32 n < 2 ^ 31 := by
      obtain ⟨m, rfl⟩ : ∃ m, n = m + 1 := ⟨n - 1, by omega⟩
      exact wrap32_lt _
    rw [heq] at hlt
    have : ((Nat.factorial 13 : ℕ) : ℤ) ≤ (Nat.factorial n : ℤ) := by exact_mod_cast hle
    have h13 : ((Nat.factorial 13 : ℕ) : ℤ) = 6227020800 := by decide
    omega
  · intro n hn heq
    have hle : Nat.factorial 21 ≤ Nat.factorial n := Nat.factorial_le hn
    have hlt : factorial64 n < 2 ^ 63 := by
      obtain ⟨m, rfl⟩ : ∃ m, n = m + 1 := ⟨n - 1, by omega⟩
      exact wrap64_lt _
    rw [heq] at hlt
    have : ((Nat.factorial 21 : ℕ) : ℤ) ≤ (Nat.factorial n : ℤ) := by exact_mod_cast hle
    have h21 : ((Nat.factorial 21 : ℕ) : ℤ) = 51090942171709440000 := by decide
    omega

theorem C7_witness :
    (13 : ℕ) ≤ 13 ∧ (21 : ℕ) ≤ 21 ∧
    factorial32 13 ≠ (Nat.factorial 13 : ℤ) ∧ factorial64 21 ≠ (Nat.factorial 21 : ℤ) ∧
    factorial32 12 = (Nat.factorial 12 : ℤ) ∧ factorial64 20 = (Nat.factorial 20 : ℤ) :=
  ⟨le_refl 13, le_refl 21,
   C7_factorial_overflow_ceiling.2.1 13 (le_refl 13),
   C7_factorial_overflow_ceiling.2.2.2 21 (le_refl 21),
   C7_factorial_overflow_ceiling.1 12 (by decide),
   C7_factorial_overflow_ceiling.2.2.1 20 (by decide)⟩

/-- C10: in `binomial(n,k) = factorial(n) / factorial(k) / factorial(n-k)`
with truncating 64-bit division, both divisions are exact (zero remainder)
for every `0 ≤ k ≤ n ≤ 20`: `factorial(k)` divides `factorial(n)`, and
`factorial(n-k)` divides the resulting quotient, so the two sequential
truncating divisions lose nothing and return the true binomial coefficient
`C(n,k)`. -/
theorem C10_truncating_divisions_exact : ∀ n : ℕ, n ≤ 20 → ∀ k : ℕ, k ≤ n →
    Int.tmod (factorial64 n) (factorial64 k) = 0 ∧
    Int.tmod (Int.tdiv (factorial64 n) (factorial64 k)) (factorial64 (n - k)) = 0 ∧
    binomial n k = (Nat.choose n k : ℤ) := by decide

theorem C10_witness :
    (20 : ℕ) ≤ 20 ∧ (10 : ℕ) ≤ 20 ∧
    (Int.tmod (factorial64 20) (factorial64 10) = 0 ∧
     Int.tmod (Int.tdiv (factorial64 20) (factorial64 10)) (factorial64 (20 - 10)) = 0 ∧
     binomial 20 10 = (Nat.choose 20 10 : ℤ)) :=
  ⟨by decide, by decide, C10_truncating_divisions_exact 20 (by decide) 10 (by decide)⟩

/-- C4: for every `n` in the overflow-safe range `0 ≤ n ≤ 20` and every
`k ≤ n`, the generated equispaced barycentric weight equals
`(-1)^k * C(n,k)` with `C(n,k)` the exact binomial coefficient; in
particular the computed `binomial(15, 8)` equals `6435`. -/
theorem C4_equispaced_weights (n k : ℕ) (hn : n ≤ 20) (hk : k ≤ n) :
    (EquispacedBarWeight n k : ℚ) = (-1) ^ k * (Nat.choose n k : ℚ) ∧
    binomial 15 8 = 6435 := by
  constructor
  · rw [EquispacedBarWeight, binomial_eq_choose n hn k hk]
    push_cast
    ring
  · decide

theorem C4_witness :
    (15 : ℕ) ≤ 20 ∧ (8 : ℕ) ≤ 15 ∧
    ((EquispacedBarWeight 15 8 : ℚ) = (-1) ^ 8 * (Nat.choose 15 8 : ℚ) ∧
     binomial 15 8 = 6435) :=
  ⟨by decide, by decide, C4_equispaced_weights 15 8 (by decide) (by decide)⟩

/-! ## Behaviour of the evaluator loop -/

theorem LagrangeLoop_break (fvals xnodes barw : ℕ → F) (t eps : F) :
    ∀ (fuel j m : ℕ) (st : Option F × Option F), j ≤ m → m < j + fuel →
    (∀ i, j ≤ i → i < m → ¬ |t - xnodes i| < eps) →
    |t - xnodes m| < eps →
    LagrangeLoop fvals xnodes barw t eps j fuel st = (some (fvals m), some 1) := by
  intro fuel
  induction fuel with
  | zero => intro j m st h1 h2 _ _; omega
  | succ fuel ih =>
    intro j m st h1 h2 hno hm
    rw [LagrangeLoop]
    by_cases hj : |t - xnodes j| < eps
    · have hjm : j = m := by
        rcases Nat.lt_or_ge j m with h | h
        · exact absurd hj (hno j le_rfl h)
        · omega
      subst hjm
      simp [hj]
    · have hjm : j < m := by
        rcases Nat.eq_or_lt_of_le h1 with rfl | h
        · exact absurd hm hj
        · exact h
      simp only [hj, if_false]
      exact ih (j + 1) m _ (by omega) (by omega) (fun i hi1 hi2 => hno i (by omega) hi2) hm

theorem LagrangeLoop_sum (fvals xnodes barw : ℕ → F) (t eps : F) :
    ∀ (fuel j : ℕ) (a b : F),
    (∀ i, j ≤ i → i < j + fuel → ¬ |t - xnodes i| < eps ∧ t - xnodes i ≠ 0) →
    LagrangeLoop fvals xnodes barw t eps j fuel (some a, some b) =
      (some (a + ∑ i ∈ Finset.Ico j (j + fuel), barw i / (t - xnodes i) * fvals i),
       some (b + ∑ i ∈ Finset.Ico j (j + fuel), barw i / (t - xnodes i))) := by
  intro fuel
  induction fuel with
  | zero => intro j a b _; simp [LagrangeLoop]
  | succ fuel ih =>
    intro j a b h
    obtain ⟨hja, hjb⟩ := h j le_rfl (by omega)
    rw [LagrangeLoop]
    simp only [LagrangeStep, hjb, if_neg, if_false, hja, if_true, Option.map_some']
    have harange : j + (fuel + 1) = (j + 1) + fuel := by omega
    rw [ih (j + 1) _ _ (fun i hi1 hi2 => h i (by omega) (by omega))]
    rw [harange, Finset.sum_eq_sum_Ico_succ_bot (by omega : j < j + 1 + fuel),
      Finset.sum_eq_sum_Ico_succ_bot (by omega : j < j + 1 + fuel)]
    exact Prod.ext (by rw [Option.some_inj]; ring) (by rw [Option.some_inj]; ring)

/-- Short-circuit path of the evaluator: if `m ≤ n` is the first index whose
node is within `eps` of `t`, the returned value is exactly `fvals m`. -/
theorem LagrangeInterp1D_break (fvals xnodes barw : ℕ → F) (n m : ℕ) (t eps : F)
    (hm : m ≤ n) (hfirst : ∀ i, i < m → ¬ |t - xnodes i| < eps)
    (hhit : |t - xnodes m| < eps) :
    LagrangeInterp1D fvals xnodes n barw t eps = some (fvals m) := by
  rw [LagrangeInterp1D,
    LagrangeLoop_break fvals xnodes barw t eps (n + 1) 0 m _ (by omega) (by omega)
      (fun i _ hi2 => hfirst i hi2) hhit]
  simp

/-- Summation path of the evaluator: if no node is within `eps` of `t` (and no
`tdiff` is exactly zero), the accumulators are the barycentric sums and the
returned value is their quotient. -/
theorem LagrangeInterp1D_sum (fvals xnodes barw : ℕ → F) (n : ℕ) (t eps : F)
    (hsep : ∀ i, i ≤ n → ¬ |t - xnodes i| < eps ∧ t - xnodes i ≠ 0)
    (hden : ∑ i ∈ Finset.range (n + 1), barw i / (t - xnodes i) ≠ 0) :
    LagrangeInterp1D fvals xnodes n barw t eps =
      some ((∑ i ∈ Finset.range (n + 1), barw i / (t - xnodes i) * fvals i) /
        (∑ i ∈ Finset.range (n + 1), barw i / (t - xnodes i))) := by
  rw [LagrangeInterp1D,
    LagrangeLoop_sum fvals xnodes barw t eps (n + 1) 0 0 0
      (fun i _ hi2 => hsep i (by omega))]
  simp only [zero_add, Finset.range_eq_Ico]
  simp [hden]

/-! ## C3: degenerate degree `n = 0` in the node generators -/

/-- C3 counterexample: at `n = 0` neither generator returns the scheme's
reference point; both compute their single node through a division by zero
(`0*2.0/0` resp. `0*acos(-1.0)/0`), so the single entry is non-finite. -/
theorem C3_counterexample :
    ¬ (EquispacedNodesChk 0 = [some (-1 : ℚ)] ∧ ChebNodesChk 0 = [some (1 : ℝ)]) := by
  intro h
  have h1 := h.1
  simp [EquispacedNodesChk] at h1

/-- C3 amended: for `n = 0` each generator returns a one-element node set,
but its single entry is produced by a division by zero (so it is NaN, not
the scheme's reference point); for every `n ≥ 1` no division by zero is
performed and the finite nodes are produced. -/
theorem C3_amended (n : ℕ) :
    (EquispacedNodesChk n).length = n + 1 ∧ (ChebNodesChk n).length = n + 1 ∧
    (n = 0 → EquispacedNodesChk n = [none] ∧ ChebNodesChk n = [none]) ∧
    (1 ≤ n →
      EquispacedNodesChk n = (List.range (n + 1)).map (fun k => some (EquispacedNode n k)) ∧
      ChebNodesChk n = (List.range (n + 1)).map (fun k => some (ChebNode n k))) := by
  refine ⟨by simp [EquispacedNodesChk], by simp [ChebNodesChk], ?_, ?_⟩
  · rintro rfl
    constructor
    · simp [EquispacedNodesChk]
    · simp [ChebNodesChk]
  · intro hn
    have hne : n ≠ 0 := by omega
    constructor
    · simp [EquispacedNodesChk, hne]
    · simp [ChebNodesChk, hne]

theorem C3_amended_witness :
    (EquispacedNodesChk 0).length = 1 ∧ EquispacedNodesChk 0 = [none] ∧
    ChebNodesChk 0 = [none] ∧
    EquispacedNodesChk 1 = (List.range 2).map (fun k => some (EquispacedNode 1 k)) ∧
    ChebNodesChk 1 = (List.range 2).map (fun k => some (ChebNode 1 k)) :=
  ⟨(C3_amended 0).1, ((C3_amended 0).2.2.1 rfl).1, ((C3_amended 0).2.2.1 rfl).2,
   ((C3_amended 1).2.2.2 le_rfl).1, ((C3_amended 1).2.2.2 le_rfl).2⟩

/-! ## C5: Chebyshev barycentric weight pattern -/

/-- C5: for every `n ≥ 1` the generated Chebyshev weight set has
`w[0] = 0.5`, `w[k] = (-1)^k` for interior `1 ≤ k ≤ n-1`, and
`w[n] = 0.5*(-1)^n`; equivalently the interior weights alternate in sign
with magnitude `1` and both endpoint weights have magnitude `0.5`. -/
theorem C5_cheb_weights (n : ℕ) (hn : 1 ≤ n) :
    (ChebBarWeight n 0 : ℚ) = 1 / 2 ∧
    (∀ k : ℕ, 1 ≤ k → k ≤ n - 1 → (ChebBarWeight n k : ℚ) = (-1) ^ k) ∧
    (ChebBarWeight n n : ℚ) = 1 / 2 * (-1) ^ n ∧
    |(ChebBarWeight n 0 : ℚ)| = 1 / 2 ∧ |(ChebBarWeight n n : ℚ)| = 1 / 2 ∧
    (∀ k : ℕ, 1 ≤ k → k ≤ n - 1 → |(ChebBarWeight n k : ℚ)| = 1) ∧
    (∀ k : ℕ, 1 ≤ k → k + 1 ≤ n - 1 →
      (ChebBarWeight n (k + 1) : ℚ) = -ChebBarWeight n k) := by
  have hinterior : ∀ k : ℕ, 1 ≤ k → k ≤ n - 1 → (ChebBarWeight n k : ℚ) = (-1) ^ k := by
    intro k h1 h2
    have hkn : k ≠ n := by omega
    have hk0 : k ≠ 0 := by omega
    simp [ChebBarWeight, hkn, hk0]
  have h0 : (ChebBarWeight n 0 : ℚ) = 1 / 2 := by
    rcases Nat.eq_or_lt_of_le hn with rfl | h
    · norm_num [ChebBarWeight]
    · have : (0 : ℕ) ≠ n := by omega
      simp [ChebBarWeight, this]
  have hn' : (ChebBarWeight n n : ℚ) = 1 / 2 * (-1) ^ n := by simp [ChebBarWeight]
  refine ⟨h0, hinterior, hn', by rw [h0]; norm_num, ?_, ?_, ?_⟩
  · rw [hn', abs_mul, abs_pow]
    norm_num
  · intro k h1 h2
    rw [hinterior k h1 h2, abs_pow]
    norm_num
  · intro k h1 h2
    rw [hinterior k h1 (by omega), hinterior (k + 1) (by omega) h2]
    ring

theorem C5_witness :
    (1 : ℕ) ≤ 3 ∧ (1 : ℕ) ≤ 2 ∧ (2 : ℕ) ≤ 3 - 1 ∧
    (ChebBarWeight 3 0 : ℚ) = 1 / 2 ∧ (ChebBarWeight 3 2 : ℚ) = (-1) ^ 2 ∧
    (ChebBarWeight 3 3 : ℚ) = 1 / 2 * (-1) ^ 3 ∧ |(ChebBarWeight 3 2 : ℚ)| = 1 :=
  ⟨by decide, by decide, by decide,
   (C5_cheb_weights 3 (by decide)).1,
   (C5_cheb_weights 3 (by decide)).2.1 2 (by decide) (by decide),
   (C5_cheb_weights 3 (by decide)).2.2.1,
   (C5_cheb_weights 3 (by decide)).2.2.2.2.2.1 2 (by decide) (by decide)⟩

/-! ## Node ordering and node separation -/

theorem EquispacedNode_sub_eq (n k i : ℕ) :
    (EquispacedNode n k : F) - EquispacedNode n i = ((k : F) - (i : F)) * 2 / (n : F) := by
  unfold EquispacedNode
  ring

theorem EquispacedNode_zero (n : ℕ) : (EquispacedNode n 0 : F) = -1 := by
  simp [EquispacedNode]

theorem EquispacedNode_last (n : ℕ) (hn : 1 ≤ n) : (EquispacedNode n n : F) = 1 := by
  have hne : (n : F) ≠ 0 := Nat.cast_ne_zero.mpr (by omega)
  rw [EquispacedNode, mul_comm, mul_div_assoc, div_self hne]
  norm_num

theorem EquispacedNode_strictMono (n : ℕ) (hn : 1 ≤ n) {i j : ℕ} (hij : i < j) :
    (EquispacedNode n i : F) < EquispacedNode n j := by
  have hn0 : (0 : F) < n := by exact_mod_cast Nat.pos_of_ne_zero (by omega)
  have hij' : (i : F) < j := by exact_mod_cast hij
  have := EquispacedNode_sub_eq (F := F) n j i
  have hpos : (0 : F) < ((j : F) - i) * 2 / n := by
    apply div_pos (by linarith) hn0
  linarith [this]

theorem ChebNode_zero (n : ℕ) : ChebNode n 0 = 1 := by
  simp [ChebNode]

theorem ChebNode_last (n : ℕ) (hn : 1 ≤ n) : ChebNode n n = -1 := by
  have hne : (n : ℝ) ≠ 0 := Nat.cast_ne_zero.mpr (by omega)
  rw [ChebNode, mul_comm, mul_div_assoc, div_self hne, mul_one, Real.cos_pi]

theorem ChebNode_strictAnti (n : ℕ) (hn : 1 ≤ n) {i j : ℕ} (hij : i < j) (hj : j ≤ n) :
    ChebNode n j < ChebNode n i := by
  have hπ := Real.pi_pos
  have hn0 : (0 : ℝ) < n := by exact_mod_cast Nat.pos_of_ne_zero (by omega)
  have hij' : (i : ℝ) < j := by exact_mod_cast hij
  have hjn : (j : ℝ) ≤ n := by exact_mod_cast hj
  have hin : (i : ℝ) ≤ n := by linarith
  apply Real.strictAntiOn_cos
  · exact ⟨by positivity, by rw [div_le_iff hn0]; nlinarith⟩
  · exact ⟨by positivity, by rw [div_le_iff hn0]; nlinarith⟩
  · rw [div_lt_div_iff hn0 hn0]
    exact mul_lt_mul_of_pos_right (mul_lt_mul_of_pos_right hij' hπ) hn0

/-- C6: equispaced nodes are strictly increasing from `-1` to `1`; Chebyshev
nodes `cos(πk/n)` are strictly decreasing from `1` down to `-1`. -/
theorem C6_node_ordering :
    (∀ n : ℕ, 1 ≤ n →
      (∀ i j : ℕ, i < j → j ≤ n → (EquispacedNode n i : ℚ) < EquispacedNode n j) ∧
      (EquispacedNode n 0 : ℚ) = -1 ∧ (EquispacedNode n n : ℚ) = 1) ∧
    (∀ n : ℕ, 1 ≤ n →
      (∀ i j : ℕ, i < j → j ≤ n → ChebNode n j < ChebNode n i) ∧
      ChebNode n 0 = 1 ∧ ChebNode n n = -1) := by
  constructor
  · intro n hn
    exact ⟨fun i j hij _ => EquispacedNode_strictMono n hn hij,
      EquispacedNode_zero n, EquispacedNode_last n hn⟩
  · intro n hn
    exact ⟨fun i j hij hj => ChebNode_strictAnti n hn hij hj,
      ChebNode_zero n, ChebNode_last n hn⟩

theorem C6_witness :
    (1 : ℕ) ≤ 1 ∧
    ((EquispacedNode 1 0 : ℚ) < EquispacedNode 1 1 ∧
     (EquispacedNode 1 0 : ℚ) = -1 ∧ (EquispacedNode 1 1 : ℚ) = 1) ∧
    (ChebNode 1 1 < ChebNode 1 0 ∧ ChebNode 1 0 = 1 ∧ ChebNode 1 1 = -1) :=
  ⟨le_rfl,
   ⟨(C6_node_ordering.1 1 le_rfl).1 0 1 (by decide) le_rfl,
    (C6_node_ordering.1 1 le_rfl).2.1, (C6_node_ordering.1 1 le_rfl).2.2⟩,
   ⟨(C6_node_ordering.2 1 le_rfl).1 0 1 (by decide) le_rfl,
    (C6_node_ordering.2 1 le_rfl).2.1, (C6_node_ordering.2 1 le_rfl).2.2⟩⟩

/-- Monotone lower bound for `sin` on the symmetric window `[h, π - h]`. -/
theorem sin_le_sin_of_window {h θ : ℝ} (h0 : 0 ≤ h) (hh : h ≤ Real.pi / 2)
    (h1 : h ≤ θ) (h2 : θ ≤ Real.pi - h) : Real.sin h ≤ Real.sin θ := by
  have hπ := Real.pi_pos
  rcases le_or_lt θ (Real.pi / 2) with hc | hc
  · exact Real.strictMonoOn_sin.monotoneOn ⟨by linarith, hh⟩ ⟨by linarith, hc⟩ h1
  · rw [← Real.sin_pi_sub θ]
    exact Real.strictMonoOn_sin.monotoneOn ⟨by linarith, hh⟩
      ⟨by linarith, by linarith⟩ (by linarith)

/-- Minimum separation of the Chebyshev nodes: any two distinct generated
nodes are at least `1 - cos(π/n)` apart (this bound is attained by the first
pair). -/
theorem ChebNode_gap (n : ℕ) (hn : 1 ≤ n) {i k : ℕ} (hik : i < k) (hk : k ≤ n) :
    1 - Real.cos (Real.pi / n) ≤ ChebNode n i - ChebNode n k := by
  have hπ := Real.pi_pos
  have hn0 : (0 : ℝ) < n := by exact_mod_cast Nat.pos_of_ne_zero (by omega)
  have hik' : (i : ℝ) + 1 ≤ k := by exact_mod_cast hik
  have hkn : (k : ℝ) ≤ n := by exact_mod_cast hk
  have hi0 : (0 : ℝ) ≤ i := Nat.cast_nonneg i
  have hA : (0 : ℝ) < Real.pi / n := by positivity
  -- write both differences as products of sines
  have e1 : 1 - Real.cos (Real.pi / n) =
      2 * Real.sin (Real.pi / n / 2) * Real.sin (Real.pi / n / 2) := by
    have hc := Real.cos_sub_cos 0 (Real.pi / n)
    rw [Real.cos_zero] at hc
    rw [hc, zero_add, zero_sub, neg_div, Real.sin_neg]
    ring
  have e2 : ChebNode n i - ChebNode n k =
      2 * Real.sin (((i : ℝ) * Real.pi / n + (k : ℝ) * Real.pi / n) / 2) *
        Real.sin (((k : ℝ) * Real.pi / n - (i : ℝ) * Real.pi / n) / 2) := by
    rw [ChebNode, ChebNode, Real.cos_sub_cos]
    have hsw : ((i : ℝ) * Real.pi / n - (k : ℝ) * Real.pi / n) / 2 =
        -((((k : ℝ) * Real.pi / n - (i : ℝ) * Real.pi / n)) / 2) := by ring
    rw [hsw, Real.sin_neg]
    ring
  rw [e1, e2]
  have h1k : (1 : ℝ) ≤ k := by exact_mod_cast (by omega : 1 ≤ k)
  have hself : Real.pi / n ≤ Real.pi := div_le_self hπ.le (by exact_mod_cast hn)
  have hhle : Real.pi / n / 2 ≤ Real.pi / 2 := by linarith
  have hh0 : (0 : ℝ) ≤ Real.pi / n / 2 := by positivity
  have hsh : 0 ≤ Real.sin (Real.pi / n / 2) :=
    Real.sin_nonneg_of_nonneg_of_le_pi hh0 (by linarith)
  have ei : (0 : ℝ) ≤ (i : ℝ) * Real.pi / n := by positivity
  have ek : Real.pi / n ≤ (k : ℝ) * Real.pi / n := by
    have e : (k : ℝ) * Real.pi / n - Real.pi / n = ((k : ℝ) - 1) * (Real.pi / n) := by ring
    nlinarith [mul_nonneg (by linarith : (0 : ℝ) ≤ (k : ℝ) - 1) hA.le]
  have esum : (i : ℝ) * Real.pi / n + (k : ℝ) * Real.pi / n + Real.pi / n ≤ 2 * Real.pi := by
    have e3 : (i : ℝ) * Real.pi / n + (k : ℝ) * Real.pi / n + Real.pi / n =
        ((i : ℝ) + k + 1) * (Real.pi / n) := by ring
    have e4 : (2 * (n : ℝ)) * (Real.pi / n) = 2 * Real.pi := by field_simp; ring
    have hsum : (i : ℝ) + k + 1 ≤ 2 * n := by linarith
    nlinarith [mul_le_mul_of_nonneg_right hsum hA.le]
  have ediff1 : Real.pi / n ≤ (k : ℝ) * Real.pi / n - (i : ℝ) * Real.pi / n := by
    have e : (k : ℝ) * Real.pi / n - (i : ℝ) * Real.pi / n = ((k : ℝ) - i) * (Real.pi / n) := by
      ring
    nlinarith [mul_le_mul_of_nonneg_right (by linarith : (1 : ℝ) ≤ (k : ℝ) - i) hA.le]
  have ediff2 : (k : ℝ) * Real.pi / n - (i : ℝ) * Real.pi / n ≤ Real.pi := by
    have e : (k : ℝ) * Real.pi / n - (i : ℝ) * Real.pi / n = ((k : ℝ) - i) * (Real.pi / n) := by
      ring
    have e5 : (n : ℝ) * (Real.pi / n) = Real.pi := by field_simp
    nlinarith [mul_le_mul_of_nonneg_right (by linarith : (k : ℝ) - i ≤ n) hA.le]
  have hm : Real.sin (Real.pi / n / 2) ≤
      Real.sin (((i : ℝ) * Real.pi / n + (k : ℝ) * Real.pi / n) / 2) := by
    apply sin_le_sin_of_window hh0 hhle
    · linarith
    · linarith
  have hg : Real.sin (Real.pi / n / 2) ≤
      Real.sin (((k : ℝ) * Real.pi / n - (i : ℝ) * Real.pi / n) / 2) := by
    apply sin_le_sin_of_window hh0 hhle
    · linarith
    · linarith
  have hsm : 0 ≤ Real.sin (((i : ℝ) * Real.pi / n + (k : ℝ) * Real.pi / n) / 2) :=
    le_trans hsh hm
  calc 2 * Real.sin (Real.pi / n / 2) * Real.sin (Real.pi / n / 2)
      ≤ 2 * Real.sin (((i : ℝ) * Real.pi / n + (k : ℝ) * Real.pi / n) / 2) *
        Real.sin (Real.pi / n / 2) :=
        mul_le_mul_of_nonneg_right (by linarith) hsh
    _ ≤ 2 * Real.sin (((i : ℝ) * Real.pi / n + (k : ℝ) * Real.pi / n) / 2) *
        Real.sin (((k : ℝ) * Real.pi / n - (i : ℝ) * Real.pi / n) / 2) :=
        mul_le_mul_of_nonneg_left hg (by linarith)

/-! ## C1: the interpolation property at nodes -/

/-- C1: for every `n ≥ 1`, nodes generated by either scheme with matching
weights and samples `samples[k] = g(nodes[k])`, evaluating at `t = nodes[k]`
returns exactly `samples[k]` through the short-circuit path, provided the
tolerance does not exceed the scheme's node separation (`eps*n ≤ 2` for
equispaced, `eps ≤ 1 - cos(π/n)` for Chebyshev); in particular for the
`n = 15` equispaced Runge setup the generated `node[15]` is exactly `1.0`
and the evaluation at `t = 1.0` returns exactly the sample `f(1.0)`. -/
theorem C1_interpolation_at_nodes :
    (∀ (n k : ℕ) (g : ℚ → ℚ) (eps : ℚ), 1 ≤ n → k ≤ n → 0 < eps → eps * n ≤ 2 →
      LagrangeInterp1D (fun i => g (EquispacedNode n i)) (EquispacedNode n) n
        (EquispacedBarWeight n) (EquispacedNode n k) eps = some (g (EquispacedNode n k))) ∧
    (∀ (n k : ℕ) (g : ℝ → ℝ) (eps : ℝ), 1 ≤ n → k ≤ n → 0 < eps →
      eps ≤ 1 - Real.cos (Real.pi / n) →
      LagrangeInterp1D (fun i => g (ChebNode n i)) (ChebNode n) n
        (ChebBarWeight n) (ChebNode n k) eps = some (g (ChebNode n k))) ∧
    ((EquispacedNode 15 15 : ℚ) = 1 ∧
      LagrangeInterp1D (fun i => f (EquispacedNode 15 i)) (EquispacedNode 15) 15
        (EquispacedBarWeight 15) 1 macEps = some (f 1)) := by
  have hequi : ∀ (n k : ℕ) (g : ℚ → ℚ) (eps : ℚ), 1 ≤ n → k ≤ n → 0 < eps → eps * n ≤ 2 →
      LagrangeInterp1D (fun i => g (EquispacedNode n i)) (EquispacedNode n) n
        (EquispacedBarWeight n) (EquispacedNode n k) eps = some (g (EquispacedNode n k)) := by
    intro n k g eps hn hk heps hepsn
    apply LagrangeInterp1D_break _ _ _ n k _ _ hk
    · intro i hi
      have hn0 : (0 : ℚ) < n := by exact_mod_cast Nat.pos_of_ne_zero (by omega)
      have hki : (1 : ℚ) ≤ (k : ℚ) - i := by
        have : (i : ℚ) + 1 ≤ k := by exact_mod_cast hi
        linarith
      have hpos : (0 : ℚ) < ((k : ℚ) - i) * 2 / n := div_pos (by linarith) hn0
      rw [not_lt, EquispacedNode_sub_eq, abs_of_nonneg hpos.le, le_div_iff hn0]
      nlinarith
    · simpa using heps
  refine ⟨hequi, ?_, ?_, ?_⟩
  · intro n k g eps hn hk heps hepsgap
    apply LagrangeInterp1D_break _ _ _ n k _ _ hk
    · intro i hi
      have hgap := ChebNode_gap n hn hi hk
      rw [not_lt, abs_sub_comm, abs_of_nonneg (by linarith)]
      linarith
    · simpa using heps
  · norm_num [EquispacedNode]
  · have h := hequi 15 15 f macEps (by norm_num) le_rfl (by norm_num [macEps])
      (by norm_num [macEps])
    have hnode : (EquispacedNode 15 15 : ℚ) = 1 := by norm_num [EquispacedNode]
    rw [hnode] at h
    exact h

theorem C1_witness :
    (1 : ℕ) ≤ 1 ∧ (0 : ℚ) < 1 ∧ (1 : ℚ) * ((1 : ℕ) : ℚ) ≤ 2 ∧
    (1 : ℝ) ≤ 1 - Real.cos (Real.pi / ((1 : ℕ) : ℝ)) ∧
    LagrangeInterp1D (fun i => (id : ℚ → ℚ) (EquispacedNode 1 i)) (EquispacedNode 1) 1
      (EquispacedBarWeight 1) (EquispacedNode 1 0) 1 = some ((id : ℚ → ℚ) (EquispacedNode 1 0)) ∧
    LagrangeInterp1D (fun i => (id : ℝ → ℝ) (ChebNode 1 i)) (ChebNode 1) 1
      (ChebBarWeight 1) (ChebNode 1 1) 1 = some ((id : ℝ → ℝ) (ChebNode 1 1)) :=
  ⟨le_rfl, by norm_num, by norm_num, by norm_num [Real.cos_pi],
   C1_interpolation_at_nodes.1 1 0 id 1 le_rfl (by norm_num) (by norm_num) (by norm_num),
   C1_interpolation_at_nodes.2.1 1 1 id 1 le_rfl le_rfl (by norm_num)
     (by norm_num [Real.cos_pi])⟩

/-! ## C9: division before the epsilon test, short-circuit overwrites -/

/-- C9: in the evaluator body the division `barw[j]/(t - xnodes[j])` is
performed before the epsilon test of the same index, so when `t` coincides
exactly with `xnodes[j]` the step leaves both accumulators non-finite
(`none`); nevertheless, whenever `|t - xnodes[j]| < eps` holds and no
earlier index satisfies it, the short-circuit assignment overwrites both
accumulators and the evaluator returns exactly `some (fvals j)` — no
non-finite value reaches the returned result. -/
theorem C9_division_before_epsilon_test (fvals xnodes barw : ℕ → ℚ) (n j : ℕ)
    (t eps a b : ℚ) (hj : j ≤ n) (heps : 0 < eps) :
    (t = xnodes j → LagrangeStep fvals xnodes barw t j (some a, some b) = (none, none)) ∧
    (|t - xnodes j| < eps → (∀ i, i < j → eps ≤ |t - xnodes i|) →
      LagrangeInterp1D fvals xnodes n barw t eps = some (fvals j)) := by
  constructor
  · intro ht
    simp [LagrangeStep, sub_eq_zero.mpr ht]
  · intro hhit hfirst
    exact LagrangeInterp1D_break fvals xnodes barw n j t eps hj
      (fun i hi => not_lt.mpr (hfirst i hi)) hhit

theorem C9_witness :
    (1 : ℕ) ≤ 1 ∧ (0 : ℚ) < 1 / 2 ∧ ((1 : ℚ) = (fun i : ℕ => (i : ℚ)) 1) ∧
    LagrangeStep (fun i : ℕ => (i : ℚ)) (fun i : ℕ => (i : ℚ)) (fun _ => 1) 1 1
      (some 0, some 0) = (none, none) ∧
    LagrangeInterp1D (fun i : ℕ => (i : ℚ)) (fun i : ℕ => (i : ℚ)) 1 (fun _ => 1) 1
      (1 / 2) = some 1 :=
  ⟨le_rfl, by norm_num, by norm_num,
   (C9_division_before_epsilon_test (fun i : ℕ => (i : ℚ)) (fun i : ℕ => (i : ℚ))
      (fun _ => 1) 1 1 1 (1 / 2) 0 0 le_rfl (by norm_num)).1 (by norm_num),
   by
    have h := (C9_division_before_epsilon_test (fun i : ℕ => (i : ℚ))
      (fun i : ℕ => (i : ℚ)) (fun _ => 1) 1 1 1 (1 / 2) 0 0 le_rfl (by norm_num)).2
      (by norm_num) ?_
    · simpa using h
    · intro i hi
      interval_cases i
      norm_num⟩

/-! ## C8: linear interpolation midpoint at `n = 1` -/

/-- C8: for `n = 1` the generated equispaced data is nodes `{-1, 1}` with
weights `{1, -1}`; with samples `{g(-1), g(1)}`, evaluating at `t = 0`
returns exactly the linear-interpolation midpoint `(g(-1) + g(1))/2`. -/
theorem C8_linear_midpoint (g : ℚ → ℚ) :
    (EquispacedNode 1 0 : ℚ) = -1 ∧ (EquispacedNode 1 1 : ℚ) = 1 ∧
    (EquispacedBarWeight 1 0 : ℚ) = 1 ∧ (EquispacedBarWeight 1 1 : ℚ) = -1 ∧
    LagrangeInterp1D (fun i => g (EquispacedNode 1 i)) (EquispacedNode 1) 1
      (EquispacedBarWeight 1) 0 macEps = some ((g (-1) + g 1) / 2) := by
  have hb0 : binomial 1 0 = 1 := by decide
  have hb1 : binomial 1 1 = 1 := by decide
  have hn0 : (EquispacedNode 1 0 : ℚ) = -1 := by norm_num [EquispacedNode]
  have hn1 : (EquispacedNode 1 1 : ℚ) = 1 := by norm_num [EquispacedNode]
  have hw0 : (EquispacedBarWeight 1 0 : ℚ) = 1 := by
    norm_num [EquispacedBarWeight, hb0]
  have hw1 : (EquispacedBarWeight 1 1 : ℚ) = -1 := by
    norm_num [EquispacedBarWeight, hb1]
  refine ⟨hn0, hn1, hw0, hw1, ?_⟩
  rw [LagrangeInterp1D_sum]
  · simp only [Finset.sum_range_succ, Finset.sum_range_zero, hn0, hn1, hw0, hw1]
    norm_num
  · intro i hi
    interval_cases i <;> constructor <;> norm_num [hn0, hn1, macEps]
  · simp only [Finset.sum_range_succ, Finset.sum_range_zero, hn0, hn1, hw0, hw1]
    norm_num

/-! ## Barycentric polynomial exactness (general form) -/

/-- General exactness of the embedded evaluator: if the weights are a common
nonzero multiple `c` of the true barycentric weights of pairwise distinct
nodes `x 0, …, x n`, the samples come from a polynomial `p` of degree at
most `n`, and the evaluation point stays at least `eps` away from every
node, then the evaluator returns exactly `p(t)`. -/
theorem bary_eval_poly (x w : ℕ → F) (n : ℕ) (c : F) (p : Polynomial F) (t eps : F)
    (hinj : Set.InjOn x (Finset.range (n + 1)))
    (hc : c ≠ 0)
    (hw : ∀ k, k ≤ n → w k * ∏ j ∈ (Finset.range (n + 1)).erase k, (x k - x j) = c)
    (hdeg : p.degree ≤ n)
    (heps : 0 < eps)
    (ht : ∀ j, j ≤ n → eps ≤ |t - x j|) :
    LagrangeInterp1D (fun k => Polynomial.eval (x k) p) x n w t eps =
      some (Polynomial.eval t p) := by
  have htx : ∀ j ∈ Finset.range (n + 1), t ≠ x j := by
    intro j hj heq
    have := ht j (by simpa [Nat.lt_succ_iff] using hj)
    rw [heq, sub_self, abs_zero] at this
    linarith
  have hprod_ne : ∀ k ∈ Finset.range (n + 1),
      ∏ j ∈ (Finset.range (n + 1)).erase k, (x k - x j) ≠ 0 := by
    intro k hk
    rw [Finset.prod_ne_zero_iff]
    intro j hj
    rcases Finset.mem_erase.mp hj with ⟨hjk, hjs⟩
    exact sub_ne_zero.mpr fun h => hjk (hinj hjs hk h.symm)
  have hwk : ∀ k ∈ Finset.range (n + 1),
      w k = c * Lagrange.nodalWeight (Finset.range (n + 1)) x k := by
    intro k hk
    have h1 := hw k (by simpa [Nat.lt_succ_iff] using hk)
    rw [Lagrange.nodalWeight, Finset.prod_inv_distrib, mul_comm, inv_mul_eq_div,
      eq_div_iff (hprod_ne k hk)]
    exact h1
  have hne : (Finset.range (n + 1)).Nonempty := Finset.nonempty_range_succ
  have hB := Lagrange.sum_nodalWeight_mul_inv_sub_ne_zero
    (s := Finset.range (n + 1)) (v := x) (x := t) hinj htx hne
  have hsumD : ∑ i ∈ Finset.range (n + 1), w i / (t - x i) =
      c * ∑ i ∈ Finset.range (n + 1),
        Lagrange.nodalWeight (Finset.range (n + 1)) x i * (t - x i)⁻¹ := by
    rw [Finset.mul_sum]
    refine Finset.sum_congr rfl fun i hi => ?_
    rw [hwk i hi, div_eq_mul_inv]
    ring
  have hsumN : ∑ i ∈ Finset.range (n + 1), w i / (t - x i) * Polynomial.eval (x i) p =
      c * ∑ i ∈ Finset.range (n + 1),
        Lagrange.nodalWeight (Finset.range (n + 1)) x i * (t - x i)⁻¹ *
          Polynomial.eval (x i) p := by
    rw [Finset.mul_sum]
    refine Finset.sum_congr rfl fun i hi => ?_
    rw [hwk i hi, div_eq_mul_inv]
    ring
  have hD : ∑ i ∈ Finset.range (n + 1), w i / (t - x i) ≠ 0 := by
    rw [hsumD]
    exact mul_ne_zero hc hB
  rw [LagrangeInterp1D_sum _ _ _ _ _ _
      (fun i hi => ⟨not_lt.mpr (ht i hi), sub_ne_zero.mpr (htx i (by simp [Nat.lt_succ_iff, hi]))⟩)
      hD, hsumN, hsumD, mul_div_mul_left _ _ hc]
  have hdeg' : p.degree < (Finset.range (n + 1)).card := by
    rw [Finset.card_range]
    exact lt_of_le_of_lt hdeg (by exact_mod_cast Nat.lt_succ_self n)
  have hp := Lagrange.eq_interpolate (v := x) hinj hdeg'
  rw [Option.some_inj]
  conv_rhs => rw [hp]
  rw [Lagrange.eval_interpolate_not_at_node' _ hinj hne htx]

/-! ## Equispaced barycentric weights are the true barycentric weights -/

theorem prod_range_sub_self (k : ℕ) :
    ∏ j ∈ Finset.range k, (k - j) = Nat.factorial k := by
  rw [← Finset.prod_range_reflect (fun j => k - j) k,
    ← Finset.prod_range_add_one_eq_factorial k]
  apply Finset.prod_congr rfl
  intro j hj
  rw [Finset.mem_range] at hj
  omega

theorem prod_range_cast_sub (k : ℕ) :
    ∏ j ∈ Finset.range k, ((k : ℚ) - j) = (Nat.factorial k : ℚ) := by
  rw [← prod_range_sub_self k, Nat.cast_prod]
  apply Finset.prod_congr rfl
  intro j hj
  rw [Finset.mem_range] at hj
  rw [Nat.cast_sub (le_of_lt hj)]

theorem prod_range_cast_add_one (m : ℕ) :
    ∏ i ∈ Finset.range m, ((i : ℚ) + 1) = (Nat.factorial m : ℚ) := by
  rw [← Finset.prod_range_add_one_eq_factorial m, Nat.cast_prod]
  exact Finset.prod_congr rfl fun i _ => by push_cast; ring

theorem prod_Ico_cast_sub (n k : ℕ) (hk : k ≤ n) :
    ∏ j ∈ Finset.Ico (k + 1) (n + 1), ((k : ℚ) - j) =
      (-1) ^ (n - k) * (Nat.factorial (n - k) : ℚ) := by
  rw [Finset.prod_Ico_eq_prod_range]
  have hcard : n + 1 - (k + 1) = n - k := by omega
  rw [hcard]
  have hterm : ∀ i ∈ Finset.range (n - k), ((k : ℚ) - (k + 1 + i : ℕ)) =
      (-1) * ((i : ℚ) + 1) := by
    intro i _
    push_cast
    ring
  rw [Finset.prod_congr rfl hterm, Finset.prod_mul_distrib, Finset.prod_const,
    Finset.card_range, prod_range_cast_add_one]

theorem equi_erase_split (n k : ℕ) (hk : k ≤ n) :
    (Finset.range (n + 1)).erase k = Finset.range k ∪ Finset.Ico (k + 1) (n + 1) := by
  ext a
  simp only [Finset.mem_erase, Finset.mem_range, Finset.mem_union, Finset.mem_Ico]
  omega

theorem equi_erase_prod (n k : ℕ) (hk : k ≤ n) :
    ∏ j ∈ (Finset.range (n + 1)).erase k,
        ((EquispacedNode n k : ℚ) - EquispacedNode n j) =
      (2 / (n : ℚ)) ^ n *
        ((-1) ^ (n - k) * (Nat.factorial k : ℚ) * (Nat.factorial (n - k) : ℚ)) := by
  have hterm : ∀ j ∈ (Finset.range (n + 1)).erase k,
      (EquispacedNode n k : ℚ) - EquispacedNode n j = 2 / (n : ℚ) * ((k : ℚ) - j) := by
    intro j _
    rw [EquispacedNode_sub_eq]
    ring
  rw [Finset.prod_congr rfl hterm, Finset.prod_mul_distrib, Finset.prod_const,
    Finset.card_erase_of_mem (by simp [Finset.mem_range]; omega), Finset.card_range]
  have hdisj : Disjoint (Finset.range k) (Finset.Ico (k + 1) (n + 1)) := by
    rw [Finset.disjoint_left]
    intro a ha hb
    rw [Finset.mem_range] at ha
    rw [Finset.mem_Ico] at hb
    omega
  rw [show n + 1 - 1 = n from rfl, equi_erase_split n k hk, Finset.prod_union hdisj,
    prod_range_cast_sub, prod_Ico_cast_sub n k hk]
  ring

theorem equi_weight_prod (n : ℕ) (h20 : n ≤ 20) (k : ℕ) (hk : k ≤ n) :
    (EquispacedBarWeight n k : ℚ) *
      ∏ j ∈ (Finset.range (n + 1)).erase k,
        ((EquispacedNode n k : ℚ) - EquispacedNode n j) =
      (2 / (n : ℚ)) ^ n * (-1) ^ n * (Nat.factorial n : ℚ) := by
  rw [equi_erase_prod n k hk, EquispacedBarWeight, binomial_eq_choose n h20 k hk]
  have hchoose : (Nat.choose n k : ℚ) * (Nat.factorial k : ℚ) * (Nat.factorial (n - k) : ℚ) =
      (Nat.factorial n : ℚ) := by
    exact_mod_cast congrArg (fun m : ℕ => (m : ℚ)) (Nat.choose_mul_factorial_mul_factorial hk)
  have hsign : ((-1 : ℚ)) ^ k * (-1) ^ (n - k) = (-1) ^ n := by
    rw [← pow_add]
    congr 1
    omega
  have hrearr : ((-1 : ℚ)) ^ k * ((Nat.choose n k : ℤ) : ℚ) *
      ((2 / (n : ℚ)) ^ n *
        ((-1) ^ (n - k) * (Nat.factorial k : ℚ) * (Nat.factorial (n - k) : ℚ))) =
      (2 / (n : ℚ)) ^ n * (((-1 : ℚ)) ^ k * (-1) ^ (n - k)) *
        ((Nat.choose n k : ℚ) * (Nat.factorial k : ℚ) * (Nat.factorial (n - k) : ℚ)) := by
    push_cast
    ring
  rw [hrearr, hsign, hchoose]

theorem EquispacedNode_injOn (n : ℕ) (hn : 1 ≤ n) :
    Set.InjOn (fun k => (EquispacedNode n k : ℚ)) (Finset.range (n + 1)) := by
  intro a _ b _ hab
  by_contra hne
  rcases Nat.lt_or_ge a b with h | h
  · exact absurd hab (ne_of_lt (EquispacedNode_strictMono n hn h))
  · have h' : b < a := by omega
    exact absurd hab.symm (ne_of_lt (EquispacedNode_strictMono n hn h'))

theorem C2_equi_aux (n : ℕ) (hn : 1 ≤ n) (h20 : n ≤ 20) (p : Polynomial ℚ)
    (hdeg : p.degree ≤ n) (t eps : ℚ) (heps : 0 < eps)
    (ht : ∀ j, j ≤ n → eps ≤ |t - EquispacedNode n j|) :
    LagrangeInterp1D (fun k => p.eval (EquispacedNode n k)) (EquispacedNode n) n
      (EquispacedBarWeight n) t eps = some (p.eval t) := by
  have hn0 : (n : ℚ) ≠ 0 := Nat.cast_ne_zero.mpr (by omega)
  apply bary_eval_poly (EquispacedNode n) (EquispacedBarWeight n) n
    ((2 / (n : ℚ)) ^ n * (-1) ^ n * (Nat.factorial n : ℚ)) p t eps
    (EquispacedNode_injOn n hn)
    (mul_ne_zero (mul_ne_zero (pow_ne_zero _ (div_ne_zero two_ne_zero hn0))
      (pow_ne_zero _ (by norm_num))) (Nat.cast_ne_zero.mpr (Nat.factorial_ne_zero n)))
    (fun k hk => equi_weight_prod n h20 k hk) hdeg heps ht

/-! ## Chebyshev barycentric weights are the true barycentric weights

The polynomial `q = T (n+1) - T (n-1)` (Chebyshev polynomials of the first
kind) has the `n+1` generated Chebyshev nodes as roots, degree `n+1` and
leading coefficient `2^n`, hence equals `2^n` times the nodal polynomial;
its derivative, evaluated through the Chebyshev polynomials of the second
kind, gives the node products of the barycentric weights in closed form. -/

open Polynomial Polynomial.Chebyshev

-- (1) degree and leading coefficient of T over ℝ
theorem T_deg : ∀ m : ℕ, (T ℝ (m : ℤ)).degree = (m : WithBot ℕ) ∧
    (T ℝ (m : ℤ)).leadingCoeff = 2 ^ (m - 1) := by
  intro m
  induction m using Nat.twoStepInduction with
  | zero =>
    rw [Nat.cast_zero, T_zero]
    refine ⟨degree_one, ?_⟩
    rw [leadingCoeff_one]
    norm_num
  | one =>
    rw [Nat.cast_one, T_one]
    exact ⟨degree_X, by rw [leadingCoeff_X]; norm_num⟩
  | more m ih1 ih2 =>
    have hidx : ((m + 2 : ℕ) : ℤ) = (m : ℤ) + 2 := by push_cast; ring
    have hidx1 : ((m + 1 : ℕ) : ℤ) = (m : ℤ) + 1 := by push_cast; ring
    rw [hidx, T_add_two, ← hidx1]
    have h2C : (2 : ℝ[X]) = C (2 : ℝ) := (map_ofNat C 2).symm
    have hdegT1 := ih2.1
    have hlcT1 := ih2.2
    have hdegTm := ih1.1
    have hdmul : (2 * X * T ℝ ((m + 1 : ℕ) : ℤ)).degree = ((m + 2 : ℕ) : WithBot ℕ) := by
      rw [h2C, mul_assoc, degree_mul, degree_C (two_ne_zero), degree_mul, degree_X, hdegT1]
      exact_mod_cast (by omega : 0 + (1 + (m + 1)) = m + 2)
    have hlt : (T ℝ (m : ℤ)).degree < (2 * X * T ℝ ((m + 1 : ℕ) : ℤ)).degree := by
      rw [hdmul, hdegTm]
      exact_mod_cast (by omega : m < m + 2)
    constructor
    · rw [degree_sub_eq_left_of_degree_lt hlt, hdmul]
    · rw [leadingCoeff_sub_of_degree_lt hlt, h2C, mul_assoc, leadingCoeff_mul,
        leadingCoeff_C, leadingCoeff_mul, leadingCoeff_X, hlcT1]
      norm_num
      rw [pow_succ]
      ring

-- (2) U evaluated at the endpoints, for all integer indices
theorem U_eval_one : ∀ m : ℤ, (U ℝ m).eval 1 = (m : ℝ) + 1 := by
  intro m
  induction m using Polynomial.Chebyshev.induct with
  | zero => simp
  | one => simp [U_one]; norm_num
  | add_two n ih1 ih2 =>
    rw [U_add_two]
    simp only [eval_sub, eval_mul, eval_ofNat, eval_X, ih1, ih2]
    push_cast
    ring
  | neg_add_one n ih1 ih2 =>
    rw [U_sub_one ℝ (-(n : ℤ))]
    simp only [eval_sub, eval_mul, eval_ofNat, eval_X, ih1, ih2]
    push_cast
    ring

theorem negone_zpow_add_one (z : ℤ) : (-1 : ℝ) ^ (z + 1) = -((-1 : ℝ) ^ z) := by
  rw [zpow_add₀ (by norm_num : (-1 : ℝ) ≠ 0), zpow_one]
  ring

theorem negone_zpow_add_two (z : ℤ) : (-1 : ℝ) ^ (z + 2) = (-1 : ℝ) ^ z := by
  rw [zpow_add₀ (by norm_num : (-1 : ℝ) ≠ 0)]
  norm_num

theorem U_eval_neg_one : ∀ m : ℤ, (U ℝ m).eval (-1) = ((m : ℝ) + 1) * (-1) ^ m := by
  intro m
  induction m using Polynomial.Chebyshev.induct with
  | zero => simp
  | one => simp [U_one]; norm_num
  | add_two n ih1 ih2 =>
    rw [U_add_two]
    simp only [eval_sub, eval_mul, eval_ofNat, eval_X, ih1, ih2,
      negone_zpow_add_two, negone_zpow_add_one]
    push_cast
    ring
  | neg_add_one n ih1 ih2 =>
    rw [U_sub_one ℝ (-(n : ℤ))]
    have e1 : (-1 : ℝ) ^ (-(n : ℤ)) = -((-1 : ℝ) ^ (-(n : ℤ) - 1)) := by
      conv_lhs => rw [show -(n : ℤ) = -(n : ℤ) - 1 + 1 by ring]
      rw [negone_zpow_add_one]
    have e2 : (-1 : ℝ) ^ (-(n : ℤ) + 1) = (-1 : ℝ) ^ (-(n : ℤ) - 1) := by
      rw [show -(n : ℤ) + 1 = -(n : ℤ) - 1 + 2 by ring, negone_zpow_add_two]
    simp only [eval_sub, eval_mul, eval_ofNat, eval_X, ih1, ih2, e1, e2]
    push_cast
    ring

-- (3) trigonometric values
theorem cos_nat_mul_pi (k : ℕ) : Real.cos ((k : ℝ) * Real.pi) = (-1) ^ k := by
  induction k with
  | zero => simp
  | succ k ih =>
    have e : ((k + 1 : ℕ) : ℝ) * Real.pi = (k : ℝ) * Real.pi + Real.pi := by push_cast; ring
    rw [e, Real.cos_add_pi, ih, pow_succ]
    ring

theorem cos_kpi_add (k : ℕ) (x : ℝ) :
    Real.cos ((k : ℝ) * Real.pi + x) = (-1) ^ k * Real.cos x := by
  rw [Real.cos_add, cos_nat_mul_pi, Real.sin_nat_mul_pi]
  ring

theorem cos_kpi_sub (k : ℕ) (x : ℝ) :
    Real.cos ((k : ℝ) * Real.pi - x) = (-1) ^ k * Real.cos x := by
  rw [Real.cos_sub, cos_nat_mul_pi, Real.sin_nat_mul_pi]
  ring

theorem sin_kpi_add (k : ℕ) (x : ℝ) :
    Real.sin ((k : ℝ) * Real.pi + x) = (-1) ^ k * Real.sin x := by
  rw [Real.sin_add, cos_nat_mul_pi, Real.sin_nat_mul_pi]
  ring

theorem sin_kpi_sub (k : ℕ) (x : ℝ) :
    Real.sin ((k : ℝ) * Real.pi - x) = -((-1) ^ k * Real.sin x) := by
  rw [Real.sin_sub, cos_nat_mul_pi, Real.sin_nat_mul_pi]
  ring

theorem ChebNode_injOn (n : ℕ) (hn : 1 ≤ n) :
    Set.InjOn (ChebNode n) (Finset.range (n + 1)) := by
  intro a ha b hb hab
  rw [Finset.coe_range, Set.mem_Iio] at ha hb
  by_contra hne
  rcases Nat.lt_or_ge a b with h | h
  · exact absurd hab.symm (ne_of_lt (ChebNode_strictAnti n hn h (by omega)))
  · have h' : b < a := by omega
    exact absurd hab (ne_of_lt (ChebNode_strictAnti n hn h' (by omega)))

-- (4) the polynomial q vanishes at every node
theorem q_eval_node (n k : ℕ) (hn : 1 ≤ n) :
    (T ℝ ((n : ℤ) + 1) - T ℝ ((n : ℤ) - 1)).eval (ChebNode n k) = 0 := by
  have hn0 : (n : ℝ) ≠ 0 := Nat.cast_ne_zero.mpr (by omega)
  rw [eval_sub, ChebNode, T_real_cos, T_real_cos]
  have e1 : ((((n : ℤ) + 1 : ℤ)) : ℝ) * ((k : ℝ) * Real.pi / n) =
      (k : ℝ) * Real.pi + (k : ℝ) * Real.pi / n := by
    push_cast
    field_simp
    ring
  have e2 : ((((n : ℤ) - 1 : ℤ)) : ℝ) * ((k : ℝ) * Real.pi / n) =
      (k : ℝ) * Real.pi - (k : ℝ) * Real.pi / n := by
    push_cast
    field_simp
    ring
  rw [e1, e2, cos_kpi_add, cos_kpi_sub]
  ring

-- (5) q equals 2^n times the nodal polynomial of the Chebyshev nodes
theorem cheb_nodal_eq (n : ℕ) (hn : 1 ≤ n) :
    T ℝ ((n : ℤ) + 1) - T ℝ ((n : ℤ) - 1) =
      C ((2 : ℝ) ^ n) * Lagrange.nodal (Finset.range (n + 1)) (ChebNode n) := by
  have hdT1 : (T ℝ ((n : ℤ) + 1)).degree = ((n + 1 : ℕ) : WithBot ℕ) := by
    have h := (T_deg (n + 1)).1
    rwa [show ((n + 1 : ℕ) : ℤ) = (n : ℤ) + 1 by push_cast; ring] at h
  have hlT1 : (T ℝ ((n : ℤ) + 1)).leadingCoeff = 2 ^ n := by
    have h := (T_deg (n + 1)).2
    rwa [show ((n + 1 : ℕ) : ℤ) = (n : ℤ) + 1 by push_cast; ring,
      show n + 1 - 1 = n from rfl] at h
  have hdT2 : (T ℝ ((n : ℤ) - 1)).degree = ((n - 1 : ℕ) : WithBot ℕ) := by
    have h := (T_deg (n - 1)).1
    rwa [show ((n - 1 : ℕ) : ℤ) = (n : ℤ) - 1 by
      rw [Nat.cast_sub hn, Nat.cast_one]] at h
  have hlt : (T ℝ ((n : ℤ) - 1)).degree < (T ℝ ((n : ℤ) + 1)).degree := by
    rw [hdT1, hdT2]
    exact_mod_cast (by omega : n - 1 < n + 1)
  have hdf : (T ℝ ((n : ℤ) + 1) - T ℝ ((n : ℤ) - 1)).degree = ((n + 1 : ℕ) : WithBot ℕ) := by
    rw [degree_sub_eq_left_of_degree_lt hlt, hdT1]
  have hlf : (T ℝ ((n : ℤ) + 1) - T ℝ ((n : ℤ) - 1)).leadingCoeff = 2 ^ n := by
    rw [leadingCoeff_sub_of_degree_lt hlt, hlT1]
  have hdg : (C ((2 : ℝ) ^ n) * Lagrange.nodal (Finset.range (n + 1)) (ChebNode n)).degree =
      ((n + 1 : ℕ) : WithBot ℕ) := by
    rw [degree_mul, degree_C (by positivity : (2 : ℝ) ^ n ≠ 0), Lagrange.degree_nodal,
      Finset.card_range]
    exact_mod_cast (by omega : 0 + (n + 1) = n + 1)
  have hlg : (C ((2 : ℝ) ^ n) * Lagrange.nodal (Finset.range (n + 1)) (ChebNode n)).leadingCoeff =
      2 ^ n := by
    rw [leadingCoeff_mul, leadingCoeff_C, (Lagrange.nodal_monic).leadingCoeff, mul_one]
  apply eq_of_degree_le_of_eval_index_eq (Finset.range (n + 1)) (ChebNode_injOn n hn)
  · rw [hdf, Finset.card_range]
  · rw [hdf, hdg]
  · rw [hlf, hlg]
  · intro i hi
    rw [q_eval_node n i hn, eval_mul, eval_C, Lagrange.eval_nodal_at_node hi]
    ring

-- (6) derivative of the nodal identity, evaluated at a node
theorem cheb_erase_prod (n : ℕ) (hn : 1 ≤ n) (k : ℕ) (hk : k ≤ n) :
    (2 : ℝ) ^ n * ∏ j ∈ (Finset.range (n + 1)).erase k, (ChebNode n k - ChebNode n j) =
      ((n : ℝ) + 1) * (U ℝ (n : ℤ)).eval (ChebNode n k) -
        ((n : ℝ) - 1) * (U ℝ ((n : ℤ) - 2)).eval (ChebNode n k) := by
  have hd := congrArg derivative (cheb_nodal_eq n hn)
  rw [derivative_sub, T_derivative_eq_U, T_derivative_eq_U, derivative_C_mul,
    show (n : ℤ) + 1 - 1 = (n : ℤ) by ring, show (n : ℤ) - 1 - 1 = (n : ℤ) - 2 by ring] at hd
  have happ := congrArg (eval (ChebNode n k)) hd
  have hmem : k ∈ Finset.range (n + 1) := by
    rw [Finset.mem_range]
    omega
  rw [eval_sub, eval_mul, eval_mul, eval_intCast, eval_intCast, eval_mul, eval_C,
    Lagrange.eval_nodal_derivative_eval_node_eq hmem, Lagrange.eval_nodal] at happ
  push_cast at happ
  linarith [happ]

-- (7) U values at interior nodes
theorem U_eval_interior (n k : ℕ) (hn : 1 ≤ n) (h1 : 1 ≤ k) (h2 : k < n) :
    (U ℝ (n : ℤ)).eval (ChebNode n k) = (-1) ^ k ∧
    (U ℝ ((n : ℤ) - 2)).eval (ChebNode n k) = -((-1) ^ k) := by
  have hπ := Real.pi_pos
  have hn0 : (0 : ℝ) < n := by exact_mod_cast (by omega : 0 < n)
  have hk0 : (0 : ℝ) < k := by exact_mod_cast h1
  have hkn : (k : ℝ) < n := by exact_mod_cast h2
  have hθpos : 0 < (k : ℝ) * Real.pi / n := by positivity
  have hθlt : (k : ℝ) * Real.pi / n < Real.pi := by
    rw [div_lt_iff hn0]
    nlinarith
  have hs : Real.sin ((k : ℝ) * Real.pi / n) ≠ 0 :=
    ne_of_gt (Real.sin_pos_of_pos_of_lt_pi hθpos hθlt)
  constructor
  · have h := U_real_cos ((k : ℝ) * Real.pi / n) (n : ℤ)
    have e : (((n : ℤ) : ℝ) + 1) * ((k : ℝ) * Real.pi / n) =
        (k : ℝ) * Real.pi + (k : ℝ) * Real.pi / n := by
      push_cast
      field_simp
      ring
    rw [e, sin_kpi_add] at h
    rw [ChebNode]
    exact mul_right_cancel₀ hs h
  · have h := U_real_cos ((k : ℝ) * Real.pi / n) ((n : ℤ) - 2)
    have e : ((((n : ℤ) - 2 : ℤ)) : ℝ) * ((k : ℝ) * Real.pi / n) + (k : ℝ) * Real.pi / n =
        (k : ℝ) * Real.pi - (k : ℝ) * Real.pi / n := by
      push_cast
      field_simp
      ring
    rw [show ((((n : ℤ) - 2 : ℤ)) : ℝ) + 1 = (((n : ℤ) - 2 : ℤ) : ℝ) + 1 from rfl] at h
    rw [show (((((n : ℤ) - 2 : ℤ)) : ℝ) + 1) * ((k : ℝ) * Real.pi / n) =
        ((((n : ℤ) - 2 : ℤ)) : ℝ) * ((k : ℝ) * Real.pi / n) + (k : ℝ) * Real.pi / n
      by ring, e, sin_kpi_sub,
      show -((-1 : ℝ) ^ k * Real.sin ((k : ℝ) * Real.pi / n)) =
        (-((-1 : ℝ) ^ k)) * Real.sin ((k : ℝ) * Real.pi / n) by ring] at h
    rw [ChebNode]
    exact mul_right_cancel₀ hs h

-- (8) the generated Chebyshev weights are the true barycentric weights
theorem cheb_weight_prod (n : ℕ) (hn : 1 ≤ n) (k : ℕ) (hk : k ≤ n) :
    ChebBarWeight n k *
      ∏ j ∈ (Finset.range (n + 1)).erase k, (ChebNode n k - ChebNode n j) =
      2 * (n : ℝ) / 2 ^ n := by
  have h := cheb_erase_prod n hn k hk
  have h2n : (0 : ℝ) < 2 ^ n := by positivity
  rcases eq_or_ne k 0 with rfl | hk0
  · have hkn : (0 : ℕ) ≠ n := by omega
    rw [ChebNode_zero] at h ⊢
    rw [U_eval_one, U_eval_one] at h
    push_cast at h
    rw [ChebBarWeight, if_neg hkn, if_pos rfl, eq_div_iff (ne_of_gt h2n)]
    linear_combination (1 / 2 : ℝ) * h
  rcases eq_or_ne k n with rfl | hkn2
  · rw [ChebNode_last k hn] at h ⊢
    rw [U_eval_neg_one, U_eval_neg_one] at h
    rw [zpow_natCast,
      show ((k : ℤ) - 2) = (k : ℤ) - 2 from rfl,
      zpow_sub₀ (by norm_num : (-1 : ℝ) ≠ 0), zpow_natCast] at h
    have hsq : (-1 : ℝ) ^ k * (-1) ^ k = 1 := by
      rw [← pow_add]
      exact Even.neg_one_pow ⟨k, rfl⟩
    push_cast at h
    rw [ChebBarWeight, if_pos rfl]
    have hz2 : ((-1 : ℝ)) ^ (2 : ℤ) = 1 := by norm_num
    rw [hz2, div_one] at h
    rw [eq_div_iff (ne_of_gt h2n)]
    linear_combination ((-1 : ℝ) ^ k / 2) * h + (2 * (k : ℝ)) * hsq
  · have h1 : 1 ≤ k := by omega
    have h2 : k < n := by omega
    obtain ⟨hU1, hU2⟩ := U_eval_interior n k hn h1 h2
    rw [hU1, hU2] at h
    push_cast at h
    have hsq : (-1 : ℝ) ^ k * (-1) ^ k = 1 := by
      rw [← pow_add]
      exact Even.neg_one_pow ⟨k, rfl⟩
    rw [ChebBarWeight, if_neg hkn2, if_neg hk0, eq_div_iff (ne_of_gt h2n)]
    linear_combination ((-1 : ℝ) ^ k) * h + (2 * (n : ℝ)) * hsq

theorem C2_cheb_aux (n : ℕ) (hn : 1 ≤ n) (p : Polynomial ℝ) (hdeg : p.degree ≤ n)
    (t eps : ℝ) (heps : 0 < eps) (ht : ∀ j, j ≤ n → eps ≤ |t - ChebNode n j|) :
    LagrangeInterp1D (fun k => p.eval (ChebNode n k)) (ChebNode n) n (ChebBarWeight n) t eps
      = some (p.eval t) := by
  have hn0 : (n : ℝ) ≠ 0 := Nat.cast_ne_zero.mpr (by omega)
  exact bary_eval_poly (ChebNode n) (ChebBarWeight n) n (2 * (n : ℝ) / 2 ^ n) p t eps
    (ChebNode_injOn n hn)
    (div_ne_zero (mul_ne_zero two_ne_zero hn0) (by positivity))
    (fun k hk => cheb_weight_prod n hn k hk) hdeg heps ht

/-! ## C2: polynomial exactness of the evaluator -/

/-- C2 (amended): if the samples are the values of a polynomial `p` of
degree at most `n` at the generated nodes with their matching generated
weight sets, then at every point at least `eps` away from every node the
evaluator returns exactly `p(t)` (exact rational/real arithmetic) — for the
equispaced scheme in the overflow-safe range `1 ≤ n ≤ 20` (beyond which the
generated weights are corrupted by 64-bit wrap-around), and for the
Chebyshev scheme for every `n ≥ 1`. -/
theorem C2_polynomial_exactness :
    (∀ (n : ℕ), 1 ≤ n → n ≤ 20 → ∀ p : Polynomial ℚ, p.degree ≤ n →
      ∀ t eps : ℚ, 0 < eps → (∀ j, j ≤ n → eps ≤ |t - EquispacedNode n j|) →
      LagrangeInterp1D (fun k => p.eval (EquispacedNode n k)) (EquispacedNode n) n
        (EquispacedBarWeight n) t eps = some (p.eval t)) ∧
    (∀ (n : ℕ), 1 ≤ n → ∀ p : Polynomial ℝ, p.degree ≤ n →
      ∀ t eps : ℝ, 0 < eps → (∀ j, j ≤ n → eps ≤ |t - ChebNode n j|) →
      LagrangeInterp1D (fun k => p.eval (ChebNode n k)) (ChebNode n) n
        (ChebBarWeight n) t eps = some (p.eval t)) :=
  ⟨fun n hn h20 p hdeg t eps heps ht => C2_equi_aux n hn h20 p hdeg t eps heps ht,
   fun n hn p hdeg t eps heps ht => C2_cheb_aux n hn p hdeg t eps heps ht⟩

/-- C2 counterexample: at `n = 21` (the first degree where the 64-bit
factorial wraps) the generated equispaced weights are no longer proportional
to the true barycentric weights, and the evaluator fails to reproduce the
degree-2 polynomial `X^2` at the non-node point `t = 2`, although every
premise of the claim (degree ≤ n, `t` at least `eps` from every node) is
satisfied. -/
theorem C2_counterexample :
    (Polynomial.X ^ 2 : Polynomial ℚ).degree ≤ (21 : ℕ) ∧ (1 : ℕ) ≤ 21 ∧
    (0 : ℚ) < macEps ∧
    (∀ j, j ≤ 21 → macEps ≤ |2 - EquispacedNode 21 j|) ∧
    LagrangeInterp1D (fun k => (Polynomial.X ^ 2 : Polynomial ℚ).eval (EquispacedNode 21 k))
        (EquispacedNode 21) 21 (EquispacedBarWeight 21) 2 macEps ≠
      some ((Polynomial.X ^ 2 : Polynomial ℚ).eval 2) := by
  refine ⟨?_, by norm_num, by norm_num [macEps], ?_, ?_⟩
  · rw [Polynomial.degree_X_pow]
    exact_mod_cast (by norm_num : (2 : ℕ) ≤ 21)
  · intro j hj
    have hj' : (j : ℚ) ≤ 21 := by exact_mod_cast hj
    have hnode : (EquispacedNode 21 j : ℚ) ≤ 1 := by
      rw [EquispacedNode, show ((21 : ℕ) : ℚ) = 21 by norm_num]
      have hq : (j : ℚ) * 2 / 21 ≤ 2 := by
        rw [div_le_iff (by norm_num : (0 : ℚ) < 21)]
        linarith
      linarith
    rw [abs_of_pos (by linarith)]
    have h1 : macEps ≤ 1 := by norm_num [macEps]
    linarith
  · have hb : ∀ k : ℕ, k ≤ 21 → binomial 21 k =
        [1, -1, -17, -110, -497, -1692, -4513, -9671, -16924, -24446, -29335, -29335,
         -24446, -16924, -9671, -4513, -1692, -497, -110, -17, -1, 1].getD k 0 := by decide
    simp only [Polynomial.eval_pow, Polynomial.eval_X, LagrangeInterp1D, LagrangeLoop,
      LagrangeStep, EquispacedBarWeight, EquispacedNode, macEps]
    norm_num [hb 0, hb 1, hb 2, hb 3, hb 4, hb 5, hb 6, hb 7, hb 8, hb 9, hb 10, hb 11,
      hb 12, hb 13, hb 14, hb 15, hb 16, hb 17, hb 18, hb 19, hb 20, hb 21, abs_of_pos]

theorem C2_witness :
    (1 : ℕ) ≤ 1 ∧ (1 : ℕ) ≤ 20 ∧ (Polynomial.X : Polynomial ℚ).degree ≤ (1 : ℕ) ∧
    (Polynomial.X : Polynomial ℝ).degree ≤ (1 : ℕ) ∧ (0 : ℚ) < 1 ∧ (0 : ℝ) < 1 ∧
    LagrangeInterp1D (fun k => (Polynomial.X : Polynomial ℚ).eval (EquispacedNode 1 k))
        (EquispacedNode 1) 1 (EquispacedBarWeight 1) 2 1 =
      some ((Polynomial.X : Polynomial ℚ).eval 2) ∧
    LagrangeInterp1D (fun k => (Polynomial.X : Polynomial ℝ).eval (ChebNode 1 k))
        (ChebNode 1) 1 (ChebBarWeight 1) 2 1 =
      some ((Polynomial.X : Polynomial ℝ).eval 2) :=
  ⟨le_rfl, by norm_num, by simpa using Polynomial.degree_X_le,
   by simpa using Polynomial.degree_X_le, by norm_num, by norm_num,
   C2_polynomial_exactness.1 1 le_rfl (by norm_num) Polynomial.X
     (by simpa using Polynomial.degree_X_le) 2 1 (by norm_num)
     (by
       intro j hj
       interval_cases j <;> norm_num [EquispacedNode]),
   C2_polynomial_exactness.2 1 le_rfl Polynomial.X
     (by simpa using Polynomial.degree_X_le) 2 1 (by norm_num)
     (by
       intro j hj
       interval_cases j
       · rw [ChebNode_zero]
         norm_num
       · rw [ChebNode_last 1 le_rfl]
         norm_num)⟩

end NumLab
